import Mathlib

/-!
A shallow embedding of the external merge sort program: the closable
blocking queue `tp::UnboundedBlockingQueue` (blocking_queue.hpp) and the
pipeline in main.cpp (`SorterRoutine`, `SortBatchFiles`, `MergeRoutine`,
`MergeBatchFiles`, `main`).

The input file is a sequence of 4-byte signed integers, modelled as a
`List Int`; its byte size is `4 * length`.  Sizes and byte offsets are
`Nat` (C++ `size_t`).  Blocking calls are modelled explicitly: a `Take`
that the C++ code would block on is rendered as the result `none`.
-/

namespace ExtSort

/-- State of `tp::UnboundedBlockingQueue<T>`: the `buffer_` deque and the
`is_closed_` flag.  The mutex and condition variable only serialize access
and are not part of the sequential state. -/
structure QState (T : Type) where
  buffer : List T
  is_closed : Bool
deriving DecidableEq

/-- `UnboundedBlockingQueue::Put`: under the lock, return `false` and drop
the value when the queue is closed, otherwise push the value at the back of
the deque (`notify_one` then wakes one blocked consumer). -/
def put {T : Type} (v : T) (s : QState T) : Bool × QState T :=
  if s.is_closed then (false, s)
  else (true, ⟨s.buffer ++ [v], s.is_closed⟩)

/-- `UnboundedBlockingQueue::Take`: the wait loop blocks while the buffer is
empty and the queue is not closed -- modelled as result `none`.  Otherwise
an empty (hence closed) buffer yields `some (none, s)` (`std::nullopt`),
and a non-empty buffer pops and returns the front element. -/
def takeStep {T : Type} (s : QState T) : Option (Option T × QState T) :=
  if s.buffer.isEmpty && !s.is_closed then none
  else
    match s.buffer with
    | [] => some (none, s)
    | v :: rest => some (some v, ⟨rest, s.is_closed⟩)

/-- Repeat `Take` up to `n` times, collecting the returned values; stop at
the first call that blocks or returns `std::nullopt`. -/
def takeN {T : Type} : Nat → QState T → List T × QState T
  | 0, s => ([], s)
  | n + 1, s =>
    match takeStep s with
    | none => ([], s)
    | some (none, s1) => ([], s1)
    | some (some v, s1) =>
      let r := takeN n s1
      (v :: r.1, r.2)

/-- `UnboundedBlockingQueue::Close` = `CloseImpl(false)`: set `is_closed_`,
keep the buffered items (`notify_all` wakes every blocked consumer). -/
def close {T : Type} (s : QState T) : QState T := ⟨s.buffer, true⟩

/-- `UnboundedBlockingQueue::Cancel` = `CloseImpl(true)`: set `is_closed_`
and clear the buffer (`notify_all` wakes every blocked consumer). -/
def cancel {T : Type} (_s : QState T) : QState T := ⟨[], true⟩

/-- `sizeof(int)` on the target platform. -/
def intBytes : Nat := 4

/-- `batch_bytes = batch_size * sizeof(int)` in `SortBatchFiles`. -/
def batchBytes (B : Nat) : Nat := B * intBytes

/-- The bound of the chunk loop in `SortBatchFiles`:
`file_size / batch_bytes + 1`. -/
def loopBound (fileSize B : Nat) : Nat := fileSize / batchBytes B + 1

/-- `struct SortTask`; the input file name and the queue reference are
implicit in the model. -/
structure SortTask where
  offset : Nat
  max_numbers : Nat
deriving DecidableEq

/-- The read loop of `SorterRoutine` on the suffix of the input starting at
the task's offset: `for (i = 0; i < max_numbers && !istr.eof(); i++)` reads
one 4-byte int per iteration; a read past the end of the file fails,
leaves the default value `0` -- which the loop still pushes -- and sets
eofbit, which ends the loop. -/
def readLoop : List Int → Nat → List Int
  | _, 0 => []
  | [], _ + 1 => [0]
  | x :: xs, m + 1 => x :: readLoop xs m

/-- `std::sort(begin, end)`: an ascending in-memory sort. -/
def sortAsc (l : List Int) : List Int := List.insertionSort (· ≤ ·) l

/-- The contents of the run file `SorterRoutine` writes for one task: the
chunk read from byte offset `t.offset` (element index `offset / 4`, offsets
being multiples of 4), sorted ascending. -/
def sorterRun (file : List Int) (t : SortTask) : List Int :=
  sortAsc (readLoop (file.drop (t.offset / intBytes)) t.max_numbers)

/-- `SortBatchFiles`: iterate `i` below `file_size / batch_bytes + 1`,
breaking at the first chunk whose offset `i * batch_bytes` reaches
`file_size`; every surviving index spawns one `SorterRoutine` thread. -/
def sortBatchFiles (fileSize B : Nat) : List SortTask :=
  ((List.range (loopBound fileSize B)).takeWhile
      (fun i => decide (i * batchBytes B < fileSize))).map
    (fun i => ⟨i * batchBytes B, B⟩)

/-- The runs published to the queue by the sort stage: `SorterRoutine`
writes and publishes a run only when its chunk is non-empty. -/
def initRuns (file : List Int) (B : Nat) : List (List Int) :=
  ((sortBatchFiles (intBytes * file.length) B).map (sorterRun file)).filter
    (fun r => !r.isEmpty)

/-- The main loop of `MergeRoutine` with both streams readable: `v1`, `v2`
are the pending values already extracted, `r1`, `r2` what is left of each
stream.  When a stream runs out (its extraction fails and sets eofbit), the
corresponding drain loop writes the other stream's pending value and then
the rest of that stream. -/
def mergeLoop (v1 : Int) (r1 : List Int) (v2 : Int) (r2 : List Int) : List Int :=
  if v1 < v2 then
    match r1 with
    | [] => v1 :: v2 :: r2
    | h :: t => v1 :: mergeLoop h t v2 r2
  else
    match r2 with
    | [] => v2 :: v1 :: r1
    | h :: t => v2 :: mergeLoop v1 r1 h t
termination_by r1.length + r2.length

/-- `MergeRoutine` on the contents of its two input runs: when an input run
is empty the initial extraction fails immediately (eofbit, value left `0`
and never written), and the remaining drain loop copies the other run
unchanged. -/
def mergeRun : List Int → List Int → List Int
  | [], l2 => l2
  | l1, [] => l1
  | v1 :: r1, v2 :: r2 => mergeLoop v1 r1 v2 r2

/-- The reduction loop of `MergeBatchFiles`: `while (tasks_count-- > 1)`
takes two runs from the front of the queue and publishes their merge at the
back (in this sequential schedule each merge completes before the next two
`Take`s).  Returns the final queue together with the number of merge tasks
launched.  The `_ + 2, q` fallback is the state in which a `Take` blocks
because fewer than two runs are available; it is unreachable whenever
`tasksCount` is at most the number of runs in the queue. -/
def mergeBatchLoop : Nat → List (List Int) → List (List Int) × Nat
  | n + 2, a :: b :: rest =>
    let r := mergeBatchLoop (n + 1) (rest ++ [mergeRun a b])
    (r.1, r.2 + 1)
  | _ + 2, q => (q, 0)
  | _, q => (q, 0)

/-- `MergeBatchFiles`: run the reduction loop, then perform one final
`Take`.  The model returns (result of the final Take, rest of the queue,
merge tasks launched); a final `Take` on an empty queue is `none`, which on
the pipeline's never-closed queue means the call blocks forever. -/
def mergeBatchFiles (q : List (List Int)) (tasksCount : Nat) :
    Option (List Int) × List (List Int) × Nat :=
  let r := mergeBatchLoop tasksCount q
  match r.1 with
  | [] => (none, [], r.2)
  | t :: rest => (some t, rest, r.2)

/-- `main`: `SortBatchFiles` followed by `MergeBatchFiles`; the printed
`output_file` denotes the contents of the terminal run (`none` when the
final `Take` blocks). -/
def pipelineRun (file : List Int) (B : Nat) : Option (List Int) :=
  (mergeBatchFiles (initRuns file B)
    (sortBatchFiles (intBytes * file.length) B).length).1

/-- The multiset of all integers held in the runs of a queue state. -/
def runsContent (s : Multiset (List Int)) : Multiset Int :=
  (s.map Multiset.ofList).sum

/-- One `MergeRoutine` execution as observed on the multiset of available
runs: some two available runs are consumed and their merge is published.
The relation covers every pairing the thread scheduler may produce. -/
inductive MergeStep : Multiset (List Int) → Multiset (List Int) → Prop
  | step (a b : List Int) (rest : Multiset (List Int)) :
      MergeStep (a ::ₘ b ::ₘ rest) (mergeRun a b ::ₘ rest)

/-! Lemmas about the queue model. -/

lemma takeStep_closed {T : Type} (l : List T) :
    takeStep (⟨l, true⟩ : QState T) = some (l.head?, ⟨l.tail, true⟩) := by
  cases l <;> simp [takeStep]

lemma takeN_closed {T : Type} :
    ∀ (n : Nat) (l : List T),
      takeN n (⟨l, true⟩ : QState T) = (l.take n, ⟨l.drop n, true⟩) := by
  intro n
  induction n with
  | zero => intro l; simp [takeN]
  | succ k ih =>
    intro l
    cases l with
    | nil => simp [takeN, takeStep]
    | cons x xs => simp [takeN, takeStep, ih xs]

lemma close_eq {T : Type} (s : QState T) : close s = ⟨s.buffer, true⟩ := rfl

lemma cancel_eq {T : Type} (s : QState T) : cancel s = ⟨[], true⟩ := rfl

/-- C3: a `Put` performed after `Close()` or `Cancel()` returns `false`,
leaves the queue state unchanged (the value is not enqueued), and the
pushed value instance is never returned by any sequence of subsequent
`Take` calls: those return only elements that were already buffered. -/
theorem c3_put_after_close (T : Type) (s : QState T) (v : T) :
    put v (close s) = (false, close s) ∧
    put v (cancel s) = (false, cancel s) ∧
    (v ∉ s.buffer → ∀ n : Nat, v ∉ (takeN n (close s)).1) ∧
    (∀ n : Nat, v ∉ (takeN n (cancel s)).1) := by
  refine ⟨rfl, rfl, ?_, ?_⟩
  · intro hv n
    rw [close_eq, takeN_closed]
    intro hmem
    exact hv (List.take_subset n s.buffer hmem)
  · intro n
    rw [cancel_eq, takeN_closed]
    simp

/-- C4: a `Take` on a closed and empty queue returns `std::nullopt`
immediately (it does not take the blocking branch of the wait loop); a
`Take` sequence on a queue closed via `Close()` still removes and returns
the buffered items, head first in FIFO insertion order, until the buffer
is exhausted. -/
theorem c4_take_after_close (T : Type) (s : QState T) :
    (s.is_closed = true → s.buffer = [] → takeStep s = some (none, s)) ∧
    (∀ n : Nat, takeN n (close s) = (s.buffer.take n, ⟨s.buffer.drop n, true⟩)) := by
  constructor
  · intro hc hb
    obtain ⟨b, c⟩ := s
    simp only at hc hb
    subst hc; subst hb
    simp [takeStep]
  · intro n
    rw [close_eq, takeN_closed]

/-- C5: after `Cancel()` all buffered items are discarded (the buffer is
cleared), no later `Take` can observe any of them (every `Take` sequence
returns nothing), and a `Take` issued against the cancelled queue does not
block: it wakes with the empty result.  The latter is the sequential
rendering of "every thread blocked in `Take` at cancellation time wakes
and returns an empty optional". -/
theorem c5_cancel_discards (T : Type) (s : QState T) :
    (cancel s).buffer = [] ∧
    (∀ n : Nat, (takeN n (cancel s)).1 = ([] : List T)) ∧
    takeStep (cancel s) = some (none, cancel s) := by
  refine ⟨rfl, ?_, ?_⟩
  · intro n
    rw [cancel_eq, takeN_closed]
    simp
  · rw [cancel_eq]
    simp [takeStep]

/-- Witness for C3 at a concrete closed queue. -/
theorem c3_witness :
    put 7 (close (⟨[3], false⟩ : QState Int)) = (false, close ⟨[3], false⟩) ∧
    (7 : Int) ∉ (takeN 2 (close (⟨[3], false⟩ : QState Int))).1 := by
  exact ⟨(c3_put_after_close Int ⟨[3], false⟩ 7).1,
    (c3_put_after_close Int ⟨[3], false⟩ 7).2.2.1 (by decide) 2⟩

/-- Witness for C4: a drained closed queue returns empty at once, and a
closed queue buffering `[4, 7]` yields `[4, 7]` in order and is left
empty. -/
theorem c4_witness :
    takeStep (⟨[], true⟩ : QState Int) = some (none, ⟨[], true⟩) ∧
    takeN 3 (close (⟨[4, 7], false⟩ : QState Int)) = ([4, 7], ⟨[], true⟩) := by
  constructor
  · exact (c4_take_after_close Int ⟨[], true⟩).1 rfl rfl
  · have h := (c4_take_after_close Int ⟨[4, 7], false⟩).2 3
    simpa using h

/-! Lemmas about `MergeRoutine`. -/

lemma mergeLoop_perm_aux :
    ∀ (n : Nat) (v1 : Int) (r1 : List Int) (v2 : Int) (r2 : List Int),
      r1.length + r2.length ≤ n →
      (mergeLoop v1 r1 v2 r2).Perm (v1 :: r1 ++ v2 :: r2) := by
  intro n
  induction n with
  | zero =>
    intro v1 r1 v2 r2 hlen
    have h1 : r1 = [] := by
      cases r1 with
      | nil => rfl
      | cons a t => simp at hlen
    have h2 : r2 = [] := by
      cases r2 with
      | nil => rfl
      | cons a t => simp at hlen
    subst h1; subst h2
    rw [mergeLoop.eq_def]
    split
    · exact List.Perm.refl _
    · simpa using List.Perm.swap v1 v2 []
  | succ k ih =>
    intro v1 r1 v2 r2 hlen
    rw [mergeLoop.eq_def]
    split
    · cases r1 with
      | nil => exact List.Perm.refl _
      | cons h t =>
        have hb : t.length + r2.length ≤ k := by
          simp only [List.length_cons] at hlen; omega
        exact (ih h t v2 r2 hb).cons v1
    · cases r2 with
      | nil =>
        have h := (@List.perm_middle Int v2 (v1 :: r1) []).symm
        simpa using h
      | cons h t =>
        have hb : r1.length + t.length ≤ k := by
          simp only [List.length_cons] at hlen; omega
        exact ((ih v1 r1 h t hb).cons v2).trans
          (@List.perm_middle Int v2 (v1 :: r1) (h :: t)).symm

lemma mergeLoop_perm (v1 : Int) (r1 : List Int) (v2 : Int) (r2 : List Int) :
    (mergeLoop v1 r1 v2 r2).Perm (v1 :: r1 ++ v2 :: r2) :=
  mergeLoop_perm_aux (r1.length + r2.length) v1 r1 v2 r2 (Nat.le_refl _)

lemma mergeLoop_sorted_aux :
    ∀ (n : Nat) (v1 : Int) (r1 : List Int) (v2 : Int) (r2 : List Int),
      r1.length + r2.length ≤ n →
      List.Sorted (· ≤ ·) (v1 :: r1) → List.Sorted (· ≤ ·) (v2 :: r2) →
      List.Sorted (· ≤ ·) (mergeLoop v1 r1 v2 r2) := by
  intro n
  induction n with
  | zero =>
    intro v1 r1 v2 r2 hlen h1 h2
    have e1 : r1 = [] := by
      cases r1 with
      | nil => rfl
      | cons a t => simp at hlen
    have e2 : r2 = [] := by
      cases r2 with
      | nil => rfl
      | cons a t => simp at hlen
    subst e1; subst e2
    rw [mergeLoop.eq_def]
    split
    · next hlt => simp [List.sorted_cons, le_of_lt hlt]
    · next hge => simp [List.sorted_cons, Int.not_lt.mp hge]
  | succ k ih =>
    intro v1 r1 v2 r2 hlen h1 h2
    rw [mergeLoop.eq_def]
    split
    · next hlt =>
      cases r1 with
      | nil =>
        rw [List.sorted_cons]
        refine ⟨?_, h2⟩
        intro b hb
        rcases List.mem_cons.mp hb with hb | hb
        · exact hb ▸ le_of_lt hlt
        · exact le_trans (le_of_lt hlt) ((List.sorted_cons.mp h2).1 b hb)
      | cons h t =>
        rw [List.sorted_cons] at h1
        have hb : t.length + r2.length ≤ k := by
          simp only [List.length_cons] at hlen; omega
        rw [List.sorted_cons]
        refine ⟨?_, ih h t v2 r2 hb (h1.2) h2⟩
        intro b hbm
        have : b ∈ h :: t ++ v2 :: r2 := (mergeLoop_perm h t v2 r2).mem_iff.mp hbm
        rcases List.mem_append.mp this with hb1 | hb2
        · exact h1.1 b hb1
        · rcases List.mem_cons.mp hb2 with hb2 | hb2
          · exact hb2 ▸ le_of_lt hlt
          · exact le_trans (le_of_lt hlt) ((List.sorted_cons.mp h2).1 b hb2)
    · next hge =>
      have hle : v2 ≤ v1 := Int.not_lt.mp hge
      cases r2 with
      | nil =>
        rw [List.sorted_cons]
        refine ⟨?_, h1⟩
        intro b hb
        rcases List.mem_cons.mp hb with hb | hb
        · exact hb ▸ hle
        · exact le_trans hle ((List.sorted_cons.mp h1).1 b hb)
      | cons h t =>
        rw [List.sorted_cons] at h2
        have hb : r1.length + t.length ≤ k := by
          simp only [List.length_cons] at hlen; omega
        rw [List.sorted_cons]
        refine ⟨?_, ih v1 r1 h t hb h1 (h2.2)⟩
        intro b hbm
        have : b ∈ v1 :: r1 ++ h :: t := (mergeLoop_perm v1 r1 h t).mem_iff.mp hbm
        rcases List.mem_append.mp this with hb1 | hb2
        · rcases List.mem_cons.mp hb1 with hb1 | hb1
          · exact hb1 ▸ hle
          · exact le_trans hle ((List.sorted_cons.mp h1).1 b hb1)
        · exact h2.1 b hb2

lemma mergeRun_perm (l1 l2 : List Int) : (mergeRun l1 l2).Perm (l1 ++ l2) := by
  cases l1 with
  | nil => simp [mergeRun]
  | cons v1 r1 =>
    cases l2 with
    | nil => simp [mergeRun]
    | cons v2 r2 => exact mergeLoop_perm v1 r1 v2 r2

lemma mergeRun_sorted {l1 l2 : List Int}
    (h1 : List.Sorted (· ≤ ·) l1) (h2 : List.Sorted (· ≤ ·) l2) :
    List.Sorted (· ≤ ·) (mergeRun l1 l2) := by
  cases l1 with
  | nil => simpa [mergeRun] using h2
  | cons v1 r1 =>
    cases l2 with
    | nil => simpa [mergeRun] using h1
    | cons v2 r2 =>
      exact mergeLoop_sorted_aux (r1.length + r2.length) v1 r1 v2 r2
        (Nat.le_refl _) h1 h2

/-- C7: for ascending input runs, `MergeRoutine` produces the ascending
two-pointer merge: its output is sorted and is a permutation of the
concatenation of the two inputs (the multiset union, duplicates kept). -/
theorem c7_merge_sorted_perm (l1 l2 : List Int)
    (h1 : List.Sorted (· ≤ ·) l1) (h2 : List.Sorted (· ≤ ·) l2) :
    List.Sorted (· ≤ ·) (mergeRun l1 l2) ∧ (mergeRun l1 l2).Perm (l1 ++ l2) :=
  ⟨mergeRun_sorted h1 h2, mergeRun_perm l1 l2⟩

/-- Witness for C7 at the concrete runs `[1, 3]` and `[2, 3]`. -/
theorem c7_witness :
    List.Sorted (· ≤ ·) (mergeRun [1, 3] [2, 3]) ∧
    (mergeRun [1, 3] [2, 3]).Perm ([1, 3] ++ [2, 3]) :=
  c7_merge_sorted_perm [1, 3] [2, 3] (by decide) (by decide)

/-! Lemmas about the chunk partition arithmetic of `SortBatchFiles`. -/

lemma chunk_lt_iff (L B i : Nat) (hB : 1 ≤ B) :
    i * B < L ↔ i < (L + B - 1) / B := by
  have hd := Nat.div_add_mod (L + B - 1) B
  have hm : (L + B - 1) % B < B := Nat.mod_lt _ hB
  rw [Nat.mul_comm B ((L + B - 1) / B)] at hd
  constructor
  · intro h
    by_contra hq
    push_neg at hq
    have hmul : ((L + B - 1) / B) * B ≤ i * B := mul_le_mul_right' hq B
    omega
  · intro h
    have h1 : (i + 1) * B ≤ ((L + B - 1) / B) * B := mul_le_mul_right' h B
    have h2 : (i + 1) * B = i * B + B := Nat.succ_mul i B
    omega

lemma takeWhile_lt_range' :
    ∀ (n s K : Nat), K ≤ s + n →
      (List.range' s n).takeWhile (fun i => decide (i < K))
        = List.range' s (K - s) := by
  intro n
  induction n with
  | zero =>
    intro s K h
    have hz : K - s = 0 := by omega
    simp [hz]
  | succ m ih =>
    intro s K h
    rw [List.range'_succ]
    by_cases hs : s < K
    · rw [List.takeWhile_cons_of_pos (by simpa using hs)]
      rw [ih (s + 1) K (by omega)]
      have hk : K - s = (K - (s + 1)) + 1 := by omega
      rw [hk, List.range'_succ]
    · rw [List.takeWhile_cons_of_neg (by simpa using hs)]
      have hz : K - s = 0 := by omega
      simp [hz]

lemma loopBound_eq (L B : Nat) : loopBound (intBytes * L) B = L / B + 1 := by
  unfold loopBound batchBytes intBytes
  rw [Nat.mul_comm 4 L, Nat.mul_div_mul_right L B (by norm_num)]

lemma sortBatchFiles_eq (L B : Nat) (hB : 1 ≤ B) :
    sortBatchFiles (intBytes * L) B
      = (List.range ((L + B - 1) / B)).map (fun i => ⟨i * batchBytes B, B⟩) := by
  unfold sortBatchFiles
  have hpred : (fun i => decide (i * batchBytes B < intBytes * L))
      = (fun i => decide (i < (L + B - 1) / B)) := by
    funext i
    rw [decide_eq_decide]
    have h4 : i * batchBytes B = 4 * (i * B) := by
      unfold batchBytes intBytes; ring
    have h4' : intBytes * L = 4 * L := rfl
    constructor
    · intro h
      exact (chunk_lt_iff L B i hB).mp (by omega)
    · intro h
      have hlt := (chunk_lt_iff L B i hB).mpr h
      omega
  have hle : (L + B - 1) / B ≤ 0 + (L / B + 1) := by
    have h1 : (L + B - 1) / B ≤ (L + B) / B := Nat.div_le_div_right (by omega)
    have h2 : (L + B) / B = L / B + 1 := Nat.add_div_right L hB
    omega
  rw [hpred, loopBound_eq L B, List.range_eq_range',
    takeWhile_lt_range' (L / B + 1) 0 ((L + B - 1) / B) hle,
    Nat.sub_zero, ← List.range_eq_range']

/-- C6: for an input of `L` 4-byte elements and `batch_size = B ≥ 1`,
`SortBatchFiles` spawns exactly `⌈L / B⌉ = (L + B - 1) / B` sorter tasks,
and every spawned task's byte offset is below the file size (a candidate
chunk whose offset reaches the file size hits the `break` and spawns
nothing). -/
theorem c6_chunk_count (L B : Nat) (hB : 1 ≤ B) :
    (sortBatchFiles (intBytes * L) B).length = (L + B - 1) / B ∧
    ∀ t ∈ sortBatchFiles (intBytes * L) B, t.offset < intBytes * L := by
  constructor
  · rw [sortBatchFiles_eq L B hB, List.length_map, List.length_range]
  · intro t ht
    rw [sortBatchFiles_eq L B hB] at ht
    obtain ⟨i, hi, rfl⟩ := List.mem_map.mp ht
    simp only [List.mem_range] at hi
    have hlt := (chunk_lt_iff L B i hB).mpr hi
    show i * batchBytes B < intBytes * L
    have h4 : i * batchBytes B = 4 * (i * B) := by
      unfold batchBytes intBytes; ring
    have h4' : intBytes * L = 4 * L := rfl
    omega

/-- Witness for C6 at `L = 5`, `B = 2`: three chunks at byte offsets
0, 8, 16, all below the 20-byte file size. -/
theorem c6_witness :
    (sortBatchFiles (intBytes * 5) 2).length = (5 + 2 - 1) / 2 ∧
    ∀ t ∈ sortBatchFiles (intBytes * 5) 2, t.offset < intBytes * 5 :=
  c6_chunk_count 5 2 (by decide)

/-- C10: the chunk loop bound of `SortBatchFiles` divides `file_size` by
`batch_bytes = batch_size * sizeof(int)` with no guard, and that divisor is
zero exactly when `batch_size` is zero (e.g. `atoi` returning 0): the
division -- undefined behaviour in C++, totalized in this model -- is
avoided precisely under the precondition `batch_size ≥ 1`. -/
theorem c10_batch_bytes_zero (fileSize B : Nat) :
    loopBound fileSize B = fileSize / batchBytes B + 1 ∧
    (batchBytes B = 0 ↔ B = 0) := by
  constructor
  · rfl
  · unfold batchBytes intBytes
    omega

/-! Lemmas about the read loop of `SorterRoutine` and the published runs. -/

lemma readLoop_of_le :
    ∀ (s : List Int) (m : Nat), m ≤ s.length → readLoop s m = s.take m := by
  intro s
  induction s with
  | nil =>
    intro m hm
    have : m = 0 := by simpa using hm
    subst this
    rfl
  | cons x xs ih =>
    intro m hm
    cases m with
    | zero => rfl
    | succ k =>
      simp only [readLoop, List.take_succ_cons]
      rw [ih k (by simpa using hm)]

lemma readLoop_of_lt :
    ∀ (s : List Int) (m : Nat), s.length < m → readLoop s m = s ++ [0] := by
  intro s
  induction s with
  | nil =>
    intro m hm
    cases m with
    | zero => simp at hm
    | succ k => rfl
  | cons x xs ih =>
    intro m hm
    cases m with
    | zero => simp at hm
    | succ k =>
      simp only [readLoop, List.cons_append, List.cons.injEq, true_and]
      exact ih k (by simpa using hm)

lemma readLoop_ne_nil (s : List Int) (m : Nat) (hm : 1 ≤ m) :
    readLoop s m ≠ [] := by
  cases m with
  | zero => omega
  | succ k => cases s <;> simp [readLoop]

lemma sortAsc_coe (r : List Int) :
    Multiset.ofList (sortAsc r) = Multiset.ofList r :=
  Multiset.coe_eq_coe.mpr (List.perm_insertionSort _ r)

lemma sortAsc_ne_nil {r : List Int} (h : r ≠ []) : sortAsc r ≠ [] := by
  intro h0
  apply h
  have hp := (List.perm_insertionSort (· ≤ ·) r).symm
  have h0' : List.insertionSort (· ≤ ·) r = [] := h0
  rw [h0'] at hp
  exact hp.eq_nil

lemma initRuns_eq (file : List Int) (B : Nat) (hB : 1 ≤ B) :
    initRuns file B
      = (List.range ((file.length + B - 1) / B)).map
          (fun i => sortAsc (readLoop (file.drop (i * B)) B)) := by
  unfold initRuns
  rw [sortBatchFiles_eq file.length B hB, List.map_map]
  have hfun : (sorterRun file ∘ fun i => (⟨i * batchBytes B, B⟩ : SortTask))
      = fun i => sortAsc (readLoop (file.drop (i * B)) B) := by
    funext i
    show sortAsc (readLoop (file.drop (i * batchBytes B / intBytes)) B) = _
    have hdiv : i * batchBytes B / intBytes = i * B := by
      unfold batchBytes intBytes
      rw [← Nat.mul_assoc]
      exact Nat.mul_div_cancel _ (by norm_num)
    rw [hdiv]
  rw [hfun]
  apply List.filter_eq_self.mpr
  intro r hr
  obtain ⟨i, hi, rfl⟩ := List.mem_map.mp hr
  simp only [List.mem_range] at hi
  have hiB : i * B < file.length := (chunk_lt_iff file.length B i hB).mpr hi
  have hdrop : file.drop (i * B) ≠ [] := by
    rw [ne_eq, List.drop_eq_nil_iff]
    omega
  have hne : sortAsc (readLoop (file.drop (i * B)) B) ≠ [] :=
    sortAsc_ne_nil (readLoop_ne_nil _ B hB)
  simpa using hne

lemma initRuns_length (file : List Int) (B : Nat) (hB : 1 ≤ B) :
    (initRuns file B).length = (file.length + B - 1) / B := by
  rw [initRuns_eq file B hB, List.length_map, List.length_range]

lemma sortBatchFiles_length (L B : Nat) (hB : 1 ≤ B) :
    (sortBatchFiles (intBytes * L) B).length = (L + B - 1) / B := by
  rw [sortBatchFiles_eq L B hB, List.length_map, List.length_range]

lemma initRuns_sorted (file : List Int) (B : Nat) :
    ∀ r ∈ initRuns file B, List.Sorted (· ≤ ·) r := by
  intro r hr
  unfold initRuns at hr
  have hr2 := List.mem_of_mem_filter hr
  obtain ⟨t, _, rfl⟩ := List.mem_map.mp hr2
  exact List.sorted_insertionSort _ _

/-- Joining the chunks read by the spawned sorter tasks recovers the whole
file, plus one spurious `0` from the failing read of the last, partial
chunk when the batch size does not divide the input length. -/
lemma join_readChunks :
    ∀ (n B : Nat) (file : List Int), 1 ≤ B → 1 ≤ n →
      (n - 1) * B < file.length → file.length ≤ n * B →
      ((List.range n).map (fun i => readLoop (file.drop (i * B)) B)).flatten
        = file ++ (if B ∣ file.length then [] else [0]) := by
  intro n
  induction n with
  | zero => intro B file _ h1 _ _; omega
  | succ k ih =>
    intro B file hB _ hlo hhi
    rw [List.range_succ_eq_map, List.map_cons, List.flatten_cons]
    simp only [Nat.zero_mul, List.drop_zero]
    rcases Nat.eq_zero_or_pos k with hk0 | hkpos
    · subst hk0
      simp only [List.range_zero, List.map_nil, List.flatten_nil, List.append_nil]
      have hhi1 : file.length ≤ B := by simpa using hhi
      have hlo1 : 0 < file.length := by simpa using hlo
      rcases Nat.lt_or_ge file.length B with hlt | hge
      · rw [readLoop_of_lt file B hlt, if_neg]
        intro hdvd
        have := Nat.le_of_dvd hlo1 hdvd
        omega
      · have hLB : file.length = B := by omega
        rw [readLoop_of_le file B (by omega), List.take_of_length_le (by omega),
          if_pos ⟨1, by omega⟩, List.append_nil]
    · have hkB : (k + 1 - 1) * B = k * B := by simp
      have hBk : B ≤ k * B := Nat.le_mul_of_pos_left B hkpos
      have hBL : B ≤ file.length := by omega
      rw [readLoop_of_le file B hBL]
      have hcomp : ((fun i => readLoop (file.drop (i * B)) B) ∘ Nat.succ)
          = fun i => readLoop ((file.drop B).drop (i * B)) B := by
        funext i
        simp only [Function.comp_apply]
        congr 1
        rw [List.drop_drop, Nat.succ_mul, Nat.add_comm]
      rw [List.map_map, hcomp]
      have hlen : (file.drop B).length = file.length - B := List.length_drop B file
      have ek : (k - 1) * B + B = k * B := by
        cases k with
        | zero => omega
        | succ j => simp [Nat.succ_sub_one, Nat.succ_mul]
      have hk1B : (k + 1) * B = k * B + B := Nat.succ_mul k B
      have ihlo : (k - 1) * B < (file.drop B).length := by omega
      have ihhi : (file.drop B).length ≤ k * B := by omega
      rw [ih B (file.drop B) hB hkpos ihlo ihhi]
      have hdvd : (B ∣ file.length) ↔ (B ∣ (file.drop B).length) := by
        rw [hlen]
        constructor
        · intro h
          exact Nat.dvd_sub' h dvd_rfl
        · intro h
          have h2 : B ∣ (file.length - B) + B := Nat.dvd_add h dvd_rfl
          rwa [Nat.sub_add_cancel hBL] at h2
      simp only [hdvd]
      rw [← List.append_assoc, List.take_append_drop]

/-- The total multiset of integers in a list of runs is the multiset of
their concatenation. -/
lemma sum_map_coe_join :
    ∀ l : List (List Int),
      (l.map Multiset.ofList).sum = Multiset.ofList l.flatten := by
  intro l
  induction l with
  | nil => rfl
  | cons a t ih =>
    rw [List.map_cons, List.sum_cons, ih, List.flatten_cons, ← Multiset.coe_add]

lemma runsContent_coe (l : List (List Int)) :
    runsContent (Multiset.ofList l) = (l.map Multiset.ofList).sum := by
  unfold runsContent
  rw [Multiset.map_coe, Multiset.sum_coe]

/-- Content of the runs published by the sort stage: the input file's
multiset, plus one spurious `0` exactly when the batch size does not
divide the input length. -/
lemma initRuns_content (file : List Int) (B : Nat) (hB : 1 ≤ B) :
    runsContent (Multiset.ofList (initRuns file B))
      = Multiset.ofList file
        + (if B ∣ file.length then 0 else ({0} : Multiset Int)) := by
  rcases Nat.eq_zero_or_pos file.length with hL0 | hLpos
  · have hfile : file = [] := List.length_eq_zero.mp hL0
    subst hfile
    rw [initRuns_eq [] B hB]
    have hK : ((([] : List Int)).length + B - 1) / B = 0 := by
      simp only [List.length_nil, Nat.zero_add]
      exact Nat.div_eq_of_lt (by omega)
    rw [hK]
    simp [runsContent]
  · have hK1 : 1 ≤ (file.length + B - 1) / B := by
      have := (chunk_lt_iff file.length B 0 hB).mp (by simpa using hLpos)
      omega
    have hlo : ((file.length + B - 1) / B - 1) * B < file.length :=
      (chunk_lt_iff file.length B _ hB).mpr (by omega)
    have hhi : file.length ≤ ((file.length + B - 1) / B) * B := by
      by_contra hc
      push_neg at hc
      have := (chunk_lt_iff file.length B _ hB).mp hc
      omega
    rw [initRuns_eq file B hB, runsContent_coe, List.map_map]
    have hfun : (Multiset.ofList
          ∘ fun i => sortAsc (readLoop (file.drop (i * B)) B))
        = (Multiset.ofList
          ∘ fun i => readLoop (file.drop (i * B)) B) := by
      funext i
      simp only [Function.comp_apply, sortAsc_coe]
    rw [hfun, ← List.map_map, sum_map_coe_join,
      join_readChunks _ B file hB hK1 hlo hhi]
    by_cases hd : B ∣ file.length
    · simp [hd]
    · simp only [hd, ite_false, ← Multiset.coe_add, Multiset.coe_singleton]

/-! Invariants of the merge reduction, over every scheduler pairing. -/

lemma mergeRun_coe (a b : List Int) :
    Multiset.ofList (mergeRun a b) = Multiset.ofList a + Multiset.ofList b := by
  rw [Multiset.coe_eq_coe.mpr (mergeRun_perm a b), ← Multiset.coe_add]

lemma mergeStep_content {s t : Multiset (List Int)} (h : MergeStep s t) :
    runsContent t = runsContent s := by
  cases h with
  | step a b rest =>
    unfold runsContent
    rw [Multiset.map_cons, Multiset.map_cons, Multiset.map_cons,
      Multiset.sum_cons, Multiset.sum_cons, Multiset.sum_cons, mergeRun_coe,
      add_assoc]

lemma mergeStep_sorted {s t : Multiset (List Int)} (h : MergeStep s t)
    (hs : ∀ r ∈ s, List.Sorted (· ≤ ·) r) :
    ∀ r ∈ t, List.Sorted (· ≤ ·) r := by
  cases h with
  | step a b rest =>
    intro r hr
    rcases Multiset.mem_cons.mp hr with hr | hr
    · subst hr
      exact mergeRun_sorted (hs a (Multiset.mem_cons_self a _))
        (hs b (Multiset.mem_cons.mpr (Or.inr (Multiset.mem_cons_self b _))))
    · exact hs r (Multiset.mem_cons.mpr
        (Or.inr (Multiset.mem_cons.mpr (Or.inr hr))))

lemma chain_content {s t : Multiset (List Int)}
    (h : Relation.ReflTransGen MergeStep s t) :
    runsContent t = runsContent s := by
  induction h with
  | refl => rfl
  | tail _ hstep ih => rw [mergeStep_content hstep, ih]

lemma chain_sorted {s t : Multiset (List Int)}
    (h : Relation.ReflTransGen MergeStep s t)
    (hs : ∀ r ∈ s, List.Sorted (· ≤ ·) r) :
    ∀ r ∈ t, List.Sorted (· ≤ ·) r := by
  induction h with
  | refl => exact hs
  | tail _ hstep ih => exact mergeStep_sorted hstep ih

lemma runsContent_singleton (r : List Int) :
    runsContent {r} = Multiset.ofList r := by
  unfold runsContent
  rw [Multiset.map_singleton, Multiset.sum_singleton]

/-! The claims about the whole pipeline. -/

/-- Counterexample to C1 as stated: on input file `[1]` with batch size 2
the single chunk's read loop performs one failing read and pushes its
default `0`, so the terminal run is `[0, 1]`, not a permutation of the
input `[1]`. -/
theorem c1_counterexample :
    pipelineRun [1] 2 = some [0, 1] ∧ ¬ ([0, 1] : List Int).Perm [1] := by
  constructor
  · rfl
  · decide

/-- C1 amended: restricted to inputs whose length the batch size divides
(so that no chunk is partial), any complete reduction -- any chain of
merge steps from the published sort runs down to a single terminal run,
whatever pairing the scheduler produces -- ends in a run that is sorted
ascending and a permutation of the input file. -/
theorem c1_terminal_sorted_perm (file : List Int) (B : Nat) (hB : 1 ≤ B)
    (hdvd : B ∣ file.length) (s : Multiset (List Int))
    (hchain : Relation.ReflTransGen MergeStep (Multiset.ofList (initRuns file B)) s)
    (hcard : Multiset.card s = 1) :
    ∀ r ∈ s, List.Sorted (· ≤ ·) r ∧ r.Perm file := by
  obtain ⟨r0, rfl⟩ := Multiset.card_eq_one.mp hcard
  intro r hr
  rw [Multiset.mem_singleton] at hr
  subst hr
  constructor
  · exact chain_sorted hchain
      (fun q hq => initRuns_sorted file B q (Multiset.mem_coe.mp hq))
      r (Multiset.mem_singleton_self r)
  · have hc := chain_content hchain
    rw [runsContent_singleton, initRuns_content file B hB, if_pos hdvd,
      add_zero] at hc
    exact Multiset.coe_eq_coe.mp hc

/-- Witness for the amended C1 at file `[5]`, batch size 1: one chunk, the
trivial (empty) reduction chain, terminal run `[5]`. -/
theorem c1_witness : List.Sorted (· ≤ ·) [(5 : Int)] ∧ [(5 : Int)].Perm [5] := by
  have h0 : initRuns [5] 1 = [[(5 : Int)]] := rfl
  refine c1_terminal_sorted_perm [5] 1 (by decide) (by decide)
    (Multiset.ofList [[(5 : Int)]]) ?_ rfl [5] (Multiset.mem_singleton_self _)
  rw [h0]

/-- C9: (a) whenever the chunk has fewer elements left than `max_numbers`,
the read loop of `SorterRoutine` appends exactly one spurious `0` from the
failing read; (b) consequently, when the batch size does not divide the
input length (the last chunk is partial), the terminal run of any complete
reduction has one more element than the input file. -/
theorem c9_partial_chunk_extra_zero :
    (∀ (s : List Int) (m : Nat), s.length < m → readLoop s m = s ++ [0]) ∧
    (∀ (file : List Int) (B : Nat), 1 ≤ B → ¬ B ∣ file.length →
      ∀ s : Multiset (List Int),
        Relation.ReflTransGen MergeStep (Multiset.ofList (initRuns file B)) s →
        Multiset.card s = 1 → ∀ r ∈ s, r.length = file.length + 1) := by
  constructor
  · exact readLoop_of_lt
  · intro file B hB hdvd s hchain hcard r hr
    obtain ⟨r0, rfl⟩ := Multiset.card_eq_one.mp hcard
    rw [Multiset.mem_singleton] at hr
    subst hr
    have hc := chain_content hchain
    rw [runsContent_singleton, initRuns_content file B hB, if_neg hdvd] at hc
    have hcard2 := congrArg Multiset.card hc
    rw [Multiset.coe_card, Multiset.card_add, Multiset.coe_card,
      Multiset.card_singleton] at hcard2
    exact hcard2

/-- Witness for C9: chunk suffix `[5]` with `max_numbers = 2` reads `[5, 0]`;
input `[5]` with batch size 2 gives the terminal run `[0, 5]` of length 2. -/
theorem c9_witness :
    readLoop [5] 2 = [5] ++ [0] ∧ ([0, 5] : List Int).length = [(5 : Int)].length + 1 := by
  constructor
  · exact c9_partial_chunk_extra_zero.1 [5] 2 (by decide)
  · have h0 : initRuns [5] 2 = [[(0 : Int), 5]] := rfl
    refine c9_partial_chunk_extra_zero.2 [5] 2 (by decide) (by decide)
      (Multiset.ofList [[(0 : Int), 5]]) ?_ rfl [0, 5] (Multiset.mem_singleton_self _)
    rw [h0]

/-- One pass of the reduction loop, fed a queue holding exactly
`tasksCount` runs, always ends with a single run and `tasksCount - 1`
launched merges. -/
lemma mergeBatchLoop_run :
    ∀ (k : Nat) (q : List (List Int)), q.length = k + 1 →
      ∃ t, mergeBatchLoop (k + 1) q = ([t], k) := by
  intro k
  induction k with
  | zero =>
    intro q hq
    obtain ⟨t, rfl⟩ : ∃ t, q = [t] := by
      cases q with
      | nil => simp at hq
      | cons a l =>
        cases l with
        | nil => exact ⟨a, rfl⟩
        | cons b l2 => simp at hq
    exact ⟨t, rfl⟩
  | succ m ih =>
    intro q hq
    obtain ⟨a, b, rest, rfl⟩ : ∃ a b rest, q = a :: b :: rest := by
      cases q with
      | nil => simp at hq
      | cons a l =>
        cases l with
        | nil => simp at hq
        | cons b l2 => exact ⟨a, b, l2, rfl⟩
    have hlen : (rest ++ [mergeRun a b]).length = m + 1 := by
      simp only [List.length_cons] at hq
      simp only [List.length_append, List.length_cons, List.length_nil]
      omega
    obtain ⟨t, ht⟩ := ih _ hlen
    refine ⟨t, ?_⟩
    show mergeBatchLoop (m + 2) (a :: b :: rest) = ([t], m + 1)
    simp only [mergeBatchLoop, ht]

/-- C2: for any input yielding `N ≥ 1` spawned sorter tasks (`N` being the
count returned by `SortBatchFiles`, which with `B ≥ 1` equals the number of
published initial runs), `MergeBatchFiles` launches exactly `N - 1` merge
tasks, each consuming two runs and producing one, and exactly one terminal
run remains, which the final `Take` returns (the queue is empty
afterwards). -/
theorem c2_merge_count (file : List Int) (B : Nat) (hB : 1 ≤ B)
    (hL : 1 ≤ file.length) :
    1 ≤ (sortBatchFiles (intBytes * file.length) B).length ∧
    ∃ t, mergeBatchFiles (initRuns file B)
          ((sortBatchFiles (intBytes * file.length) B).length)
        = (some t, [], (sortBatchFiles (intBytes * file.length) B).length - 1) := by
  have hK1 : 1 ≤ (file.length + B - 1) / B := by
    have := (chunk_lt_iff file.length B 0 hB).mp (by simpa using hL)
    omega
  rw [sortBatchFiles_length file.length B hB]
  refine ⟨hK1, ?_⟩
  have hq : (initRuns file B).length = ((file.length + B - 1) / B - 1) + 1 := by
    rw [initRuns_length file B hB]
    omega
  obtain ⟨t, ht⟩ := mergeBatchLoop_run _ (initRuns file B) hq
  refine ⟨t, ?_⟩
  unfold mergeBatchFiles
  have hN : (file.length + B - 1) / B = ((file.length + B - 1) / B - 1) + 1 := by
    omega
  rw [hN, ht]
  simp

/-- Witness for C2 at input `[5]`, batch size 1: one run, zero merges, the
final `Take` returns the single sorted run. -/
theorem c2_witness :
    1 ≤ (sortBatchFiles (intBytes * [(5 : Int)].length) 1).length ∧
    ∃ t, mergeBatchFiles (initRuns [(5 : Int)] 1)
          ((sortBatchFiles (intBytes * [(5 : Int)].length) 1).length)
        = (some t, [], (sortBatchFiles (intBytes * [(5 : Int)].length) 1).length - 1) :=
  c2_merge_count [5] 1 (by decide) (by decide)

/-- C8: on an empty input `SortBatchFiles` spawns no sorter task (zero
chunks), the reduction loop launches no merge task, and the final `Take`
is issued against the empty, never-closed queue: in the queue model that
call takes the blocking branch of the wait loop (result `none`) and, with
no producer left to `Put` and nobody to `Close`, never returns a terminal
run. -/
theorem c8_empty_input_blocks (B : Nat) :
    sortBatchFiles (intBytes * ([] : List Int).length) B = [] ∧
    mergeBatchFiles (initRuns [] B) 0 = (none, [], 0) ∧
    takeStep (⟨[], false⟩ : QState (List Int)) = none := by
  have hsort : sortBatchFiles (intBytes * ([] : List Int).length) B = [] := by
    unfold sortBatchFiles loopBound
    simp
  refine ⟨hsort, ?_, rfl⟩
  unfold initRuns
  rw [hsort]
  rfl

end ExtSort
